import Mathlib

/-!
Verification of the log-analyzer repository's specification against its code.

The development shallowly embeds the two Python modules of the repository:

* `log_analyzer.py` (free-form filter workflow): `match_line`,
  `normalize_error`, the `Counter.most_common`-based ranking of
  `print_summary`, and the orchestration of `analyze_logs`;
* `src/log_analyzer/{analyzer,patterns}.py` (structured-pattern workflow):
  `analyze_lines`, `summary` and `DEFAULT_PATTERNS`.

Strings are modelled as `List Char` / `String` with the ASCII fragment of
Python's text semantics: `str.lower` is `Char.toLower`, `\s` is the ASCII
whitespace class, `\d` is `Char.isDigit`, `\w` is alphanumeric-or-underscore.
Regular expressions are embedded only as far as the code uses them: the three
concrete substitution patterns of `normalize_error` (`0x[0-9a-fA-F]+`,
`\b\d+\b`, `\s+`) become explicit character-level scanners that reproduce
`re.sub`'s leftmost, non-overlapping, greedy replacement; the word-delimited
alternation patterns of `DEFAULT_PATTERNS` become explicit searches; an
arbitrary user-supplied pattern object is an opaque `String → Bool` matcher,
which is all the analyzer code ever calls (`rx.search`).
-/

/-- ASCII whitespace, Python's `\s` class restricted to ASCII. -/
def isSpaceChar (c : Char) : Bool :=
  c = ' ' || c = '\t' || c = '\n' || c = '\r' || c = '\x0b' || c = '\x0c'

/-- ASCII word character, Python's `\w` class restricted to ASCII. -/
def isWordChar (c : Char) : Bool :=
  c.isAlphanum || c = '_'

/-- ASCII hexadecimal digit, the class `[0-9a-fA-F]` spelled out. -/
def isHexDigit (c : Char) : Bool :=
  c.isDigit ||
    c ∈ ['a', 'b', 'c', 'd', 'e', 'f'] || c ∈ ['A', 'B', 'C', 'D', 'E', 'F']

/-- The literal replacement text of the first substitution of
`normalize_error`. -/
def hexPh : List Char := ['<', 'H', 'E', 'X', '>']

/-- The literal replacement text of the second substitution of
`normalize_error`. -/
def numPh : List Char := ['<', 'N', 'U', 'M', '>']

/-- Scanner state for `re.sub(r"0x[0-9a-fA-F]+", "<HEX>", line)`:
`norm` = scanning, `seen0` = just read a `0`, `seen0x` = just read `0x`,
`inhex` = inside the hex-digit run of a match being replaced. -/
inductive HState where
  | norm : HState
  | seen0 : HState
  | seen0x : HState
  | inhex : HState
deriving DecidableEq

/-- Character-level embedding of `re.sub(r"0x[0-9a-fA-F]+", "<HEX>", ·)`:
leftmost non-overlapping matches of `0x` followed by a greedy run of one or
more hex digits are replaced by `<HEX>`, everything else is copied. -/
def hexGo : HState → List Char → List Char
  | .norm, [] => []
  | .seen0, [] => ['0']
  | .seen0x, [] => ['0', 'x']
  | .inhex, [] => hexPh
  | .norm, c :: cs => if c = '0' then hexGo .seen0 cs else c :: hexGo .norm cs
  | .seen0, c :: cs =>
    if c = 'x' then hexGo .seen0x cs
    else if c = '0' then '0' :: hexGo .seen0 cs
    else '0' :: c :: hexGo .norm cs
  | .seen0x, c :: cs =>
    if isHexDigit c then hexGo .inhex cs
    else '0' :: 'x' :: c :: hexGo .norm cs
  | .inhex, c :: cs =>
    if isHexDigit c then hexGo .inhex cs
    else hexPh ++ c :: hexGo .norm cs

/-- The first substitution of `normalize_error`. -/
def hexSub (l : List Char) : List Char := hexGo .norm l

/-- Scanner state for `re.sub(r"\b\d+\b", "<NUM>", ·)`:
`scan p` = scanning, `p` records whether the previous character was a word
character (a word boundary sits before the next character iff `p` is false,
string start counting as non-word); `run buf` = inside a digit run that began
at a word boundary, `buf` holding the run's digits in reverse. -/
inductive NState where
  | scan : Bool → NState
  | run : List Char → NState

/-- Character-level embedding of `re.sub(r"\b\d+\b", "<NUM>", ·)`: a maximal
digit run preceded and followed by a word boundary is replaced by `<NUM>`;
a run that fails either boundary is copied (no sub-run can match, since the
boundary inside a run always fails). -/
def numGo : NState → List Char → List Char
  | .scan _, [] => []
  | .run _, [] => numPh
  | .scan p, c :: cs =>
    if c.isDigit && !p then numGo (.run [c]) cs
    else c :: numGo (.scan (isWordChar c)) cs
  | .run buf, c :: cs =>
    if c.isDigit then numGo (.run (c :: buf)) cs
    else if isWordChar c then buf.reverse ++ c :: numGo (.scan true) cs
    else numPh ++ c :: numGo (.scan false) cs

/-- The second substitution of `normalize_error`. -/
def numSub (l : List Char) : List Char := numGo (.scan false) l

/-- Character-level embedding of `re.sub(r"\s+", " ", ·)`: each maximal run
of whitespace becomes a single space.  The Boolean records whether the scanner
is inside a whitespace run whose replacement space was already emitted. -/
def wsGo : Bool → List Char → List Char
  | _, [] => []
  | true, c :: cs => if isSpaceChar c then wsGo true cs else c :: wsGo false cs
  | false, c :: cs =>
    if isSpaceChar c then ' ' :: wsGo true cs else c :: wsGo false cs

/-- The third substitution of `normalize_error`. -/
def wsCollapse (l : List Char) : List Char := wsGo false l

/-- Drop trailing ASCII whitespace. -/
def rstripSp (l : List Char) : List Char :=
  (l.reverse.dropWhile isSpaceChar).reverse

/-- Python's `str.strip()` (ASCII whitespace): drop leading and trailing
whitespace. -/
def pyStrip (l : List Char) : List Char :=
  rstripSp (l.dropWhile isSpaceChar)

/-- Word `w` occurs as a contiguous substring of `l`, starting at its head. -/
def startsWith : List Char → List Char → Bool
  | [], _ => true
  | _ :: _, [] => false
  | p :: ps, c :: cs => p = c && startsWith ps cs

/-- Word `w` occurs as a contiguous substring of `l` (Python's `w in l`). -/
def containsSub : List Char → List Char → Bool
  | w, [] => decide (w = [])
  | w, c :: cs => startsWith w (c :: cs) || containsSub w cs

/-- The trigger-word gate of `normalize_error`. -/
def triggerWords : List String := ["error", "failed", "exception", "warning"]

/-- The gate `any(word in line.lower() for word in (...))` of
`normalize_error`. -/
def hasTrigger (l : List Char) : Bool :=
  triggerWords.any fun w => containsSub w.toList (l.map Char.toLower)

/-- The masking pipeline of `normalize_error` applied after the trigger gate:
hex literals to `<HEX>`, then word-delimited decimal runs to `<NUM>`, then
whitespace collapsed and stripped. -/
def normKey (l : List Char) : List Char :=
  pyStrip (wsCollapse (numSub (hexSub l)))

/-- Embedding of `normalize_error` from `log_analyzer.py`: `None` unless the
lowercased line contains one of the trigger words; otherwise the masked and
whitespace-normalized line. -/
def normalize_error (line : String) : Option String :=
  if hasTrigger line.toList then some (String.mk (normKey line.toList)) else none

/-! ### Occurrence checkers

Finite-state checkers, run by `List.foldl`, that recognise when a string
contains no occurrence of the patterns `normalize_error` substitutes.  They
are used to prove that a second run of each substitution over an
already-substituted string is the identity. -/

/-- Checker state for occurrences of `0x[0-9a-fA-F]+`: `dead` means an
occurrence was found and absorbs every further character. -/
inductive HC where
  | norm : HC
  | seen0 : HC
  | seen0x : HC
  | dead : HC
deriving DecidableEq

/-- One checker step for `0x[0-9a-fA-F]+`. -/
def hstep : HC → Char → HC
  | .dead, _ => .dead
  | .norm, c => if c = '0' then .seen0 else .norm
  | .seen0, c => if c = 'x' then .seen0x else if c = '0' then .seen0 else .norm
  | .seen0x, c => if isHexDigit c then .dead else if c = '0' then .seen0 else .norm

/-- `hexOk s l`: scanning `l` from checker state `s` meets no occurrence of
`0x[0-9a-fA-F]+`. -/
def hexOk (s : HC) (l : List Char) : Prop := l.foldl hstep s ≠ .dead

instance (s : HC) (l : List Char) : Decidable (hexOk s l) := by
  unfold hexOk; infer_instance

/-- Checker state for occurrences of `\b\d+\b`: `scn p` is scanning with `p`
recording whether the previous character was a word character, `run` is inside
a digit run that began at a word boundary, `dead` means an occurrence was
found. -/
inductive NC where
  | scn : Bool → NC
  | run : NC
  | dead : NC
deriving DecidableEq

/-- One checker step for `\b\d+\b`. -/
def nstep : NC → Char → NC
  | .dead, _ => .dead
  | .scn p, c => if c.isDigit && !p then .run else .scn (isWordChar c)
  | .run, c => if c.isDigit then .run else if isWordChar c then .scn true else .dead

/-- `numOk s l`: scanning `l` from checker state `s` meets no occurrence of
`\b\d+\b` (ending the input inside a delimited run is an occurrence too). -/
def numOk (s : NC) (l : List Char) : Prop :=
  l.foldl nstep s ≠ .dead ∧ l.foldl nstep s ≠ .run

instance (s : NC) (l : List Char) : Decidable (numOk s l) := by
  unfold numOk; infer_instance

/-- Checker state for collapsed whitespace: `ok ps` with `ps` recording
whether the previous character was a space, `dead` means the string contains
a non-space whitespace character or two adjacent spaces. -/
inductive WC where
  | ok : Bool → WC
  | dead : WC
deriving DecidableEq

/-- One checker step for collapsed whitespace. -/
def wstep : WC → Char → WC
  | .dead, _ => .dead
  | .ok ps, c =>
    if isSpaceChar c then (if c = ' ' && !ps then .ok true else .dead) else .ok false

/-- `wsOk s l`: from state `s`, every whitespace character of `l` is a single
space not preceded by another space. -/
def wsOk (s : WC) (l : List Char) : Prop := l.foldl wstep s ≠ .dead

instance (s : WC) (l : List Char) : Decidable (wsOk s l) := by
  unfold wsOk; infer_instance

/-! ### The structured-pattern analyzer (`src/log_analyzer/analyzer.py`) -/

/-- The `Match` dataclass of `analyzer.py`. -/
structure Match where
  line_no : Nat
  tag : String
  line : String
deriving DecidableEq, Repr

/-- Python's `str.rstrip("\n")`: drop trailing newline characters. -/
def rstripNl (s : String) : String :=
  String.mk (s.toList.reverse.dropWhile (· = '\n')).reverse

/-- Case-insensitive match of the word `p` at the head of `l`
(alternatives of `DEFAULT_PATTERNS` are lowercase, the subject is lowered). -/
def startsWithCI : List Char → List Char → Bool
  | [], _ => true
  | _ :: _, [] => false
  | p :: ps, c :: cs => c.toLower = p && startsWithCI ps cs

/-- Word boundary after the first `n` characters of `l`: the next character,
if any, is not a word character. -/
def boundaryAfter (n : Nat) (l : List Char) : Bool :=
  match l.drop n with
  | [] => true
  | c :: _ => !isWordChar c

/-- One alternative of a `\b(w1|w2|...)\b` pattern matches at the head of `l`
(whose previous character's word-ness is `prevW`). -/
def altAt (alt : List Char) (prevW : Bool) (l : List Char) : Bool :=
  !prevW && startsWithCI alt l && boundaryAfter alt.length l

/-- Scan `l` position by position for a word-boundary-delimited,
case-insensitive occurrence of one of `alts`. -/
def searchAux (alts : List (List Char)) (prevW : Bool) : List Char → Bool
  | [] => false
  | c :: cs => alts.any (fun a => altAt a prevW (c :: cs)) || searchAux alts (isWordChar c) cs

/-- Embedding of `re.compile(r"\b(w1|...|wk)\b", re.IGNORECASE).search`: the
form of every pattern in `DEFAULT_PATTERNS`. -/
def searchWordsCI (alts : List String) (s : String) : Bool :=
  searchAux (alts.map String.toList) false s.toList

/-- The `DEFAULT_PATTERNS` registry of `patterns.py`, in registration order. -/
def DEFAULT_PATTERNS : List (String × (String → Bool)) :=
  [("ERROR", searchWordsCI ["error", "failed", "failure", "critical", "panic"]),
   ("WARNING", searchWordsCI ["warn", "warning", "deprecated", "retry"]),
   ("AUTH_FAIL", searchWordsCI ["failed password", "authentication failure", "invalid user"])]

/-- Lines paired with their 1-based positions, starting at `i`
(Python's `enumerate(lines, start=1)`). -/
def enumFrom (i : Nat) : List String → List (Nat × String)
  | [] => []
  | x :: xs => (i, x) :: enumFrom (i + 1) xs

/-- Embedding of `analyze_lines` from `analyzer.py`: enumerate the lines from
1; for each line append one `Match` per pattern whose matcher hits the line,
in the registry's order. -/
def analyze_lines (lines : List String) (patterns : List (String × (String → Bool))) :
    List Match :=
  (enumFrom 1 lines).foldl
    (fun acc p =>
      patterns.foldl
        (fun acc2 q =>
          if q.2 p.2 then acc2 ++ [Match.mk p.1 q.1 (rstripNl p.2)] else acc2)
        acc)
    []

/-- The matches `analyze_lines` appends for one line. -/
def classifyLine (i : Nat) (line : String) (patterns : List (String × (String → Bool))) :
    List Match :=
  patterns.filterMap fun q => if q.2 line then some (Match.mk i q.1 (rstripNl line)) else none

/-- Structured recursion equivalent of `analyze_lines`, used by the proofs. -/
def analyzeGo (i : Nat) (lines : List String) (patterns : List (String × (String → Bool))) :
    List Match :=
  match lines with
  | [] => []
  | line :: rest => classifyLine i line patterns ++ analyzeGo (i + 1) rest patterns

/-- Embedding of the Python `dict` update `out[t] = out.get(t, 0) + 1`: the
first entry with the key is bumped in place, a missing key is appended. -/
def bump : List (String × Nat) → String → List (String × Nat)
  | [], t => [(t, 1)]
  | (k, v) :: rest, t => if k = t then (k, v + 1) :: rest else (k, v) :: bump rest t

/-- Embedding of `summary` from `analyzer.py`: tag-mode counting of a list of
matches into an insertion-ordered counter. -/
def summary (ms : List Match) : List (String × Nat) :=
  ms.foldl (fun out m => bump out m.tag) []

/-- The total of a counter's counts. -/
def sumCounts (counter : List (String × Nat)) : Nat :=
  (counter.map Prod.snd).sum

/-! ### The ranking of `print_summary` (`Counter.most_common`) -/

/-- Stable descending insertion by count: `x` goes in front of the first
element whose count is less than or equal to its own, so earlier-inserted
entries keep their place among equal counts. -/
def ordIns (x : String × Nat) : List (String × Nat) → List (String × Nat)
  | [] => [x]
  | y :: ys => if y.2 ≤ x.2 then x :: y :: ys else y :: ordIns x ys

/-- Stable sort of a counter's items by descending count (what
`sorted(items, key=count, reverse=True)` and `heapq.nlargest` produce:
descending counts, ties in the items' original, i.e. insertion, order). -/
def sortByCountDesc : List (String × Nat) → List (String × Nat)
  | [] => []
  | x :: xs => ordIns x (sortByCountDesc xs)

/-- Embedding of `Counter.most_common(n)` for the insertion-ordered counter
`counter`, as `print_summary` calls it: `heapq.nlargest(n, items, key=count)`,
which is the empty list for `n ≤ 0` and otherwise the first `n` entries of the
stable descending sort of the items. -/
def most_common (counter : List (String × Nat)) (n : Int) : List (String × Nat) :=
  if n ≤ 0 then [] else (sortByCountDesc counter).take n.toNat

/-! ### The free-form filter workflow (`log_analyzer.py`) -/

/-- Python truthiness of an `Optional[str]`: `None` and the empty string are
falsy. -/
def truthy : Option String → Bool
  | none => false
  | some s => !s.isEmpty

/-- Case-insensitive substring containment, `needle.lower() in hay.lower()`. -/
def containsCI (needle hay : String) : Bool :=
  containsSub (needle.toList.map Char.toLower) (hay.toList.map Char.toLower)

/-- Embedding of `match_line` from `log_analyzer.py`: each truthy criterion
must hold, the regex criterion through its opaque `search` matcher. -/
def match_line (line : String) (keyword : Option String) (regex : Option (String → Bool))
    (severity : Option String) : Bool :=
  if truthy keyword && !containsCI (keyword.getD "") line then false
  else if truthy severity && !containsCI (severity.getD "") line then false
  else
    match regex with
    | some rx => rx line
    | none => true

/-- Modelled from the spec: the error raised when user-supplied regex text
does not compile.  The code lets `re.compile`'s exception propagate; the
spec's taxonomy names it `InvalidPatternError`.  Regex compilation itself is
the standard library's, not this repository's, so it is modelled as a fallible
function supplied to `analyze_logs`. -/
structure InvalidPatternError where
  msg : String
deriving DecidableEq

/-- The per-run counters of `analyze_logs` (`total_lines`, `matched_lines`,
`error_counter`). -/
structure AnalyzeReport where
  total_lines : Nat
  matched_lines : Nat
  error_counter : List (String × Nat)
deriving DecidableEq

/-- The body of `analyze_logs`'s loop for one line: count it, and when
`match_line` accepts it, count the match and feed `normalize_error`'s key, if
any, to the error counter. -/
def analyzeStep (keyword : Option String) (regex : Option (String → Bool))
    (severity : Option String) (st : AnalyzeReport) (line : String) : AnalyzeReport :=
  let st1 : AnalyzeReport :=
    { st with total_lines := st.total_lines + 1 }
  if match_line line keyword regex severity then
    let st2 : AnalyzeReport :=
      { st1 with matched_lines := st1.matched_lines + 1 }
    match normalize_error line with
    | some key => { st2 with error_counter := bump st2.error_counter key }
    | none => st2
  else st1

/-- The loop of `analyze_logs` over the whole line stream. -/
def analyzeRun (lines : List String) (keyword : Option String)
    (regex : Option (String → Bool)) (severity : Option String) : AnalyzeReport :=
  lines.foldl (analyzeStep keyword regex severity) (AnalyzeReport.mk 0 0 [])

/-- Embedding of `analyze_logs` from `log_analyzer.py`: `re.compile` runs
first, on a truthy `regex_pattern` only (`regex = re.compile(...) if
regex_pattern else None`), before any line of the stream is consumed; its
failure aborts the run with the compilation error. -/
def analyze_logs (compile : String → Except InvalidPatternError (String → Bool))
    (lines : List String) (keyword : Option String) (regex_pattern : Option String)
    (severity : Option String) : Except InvalidPatternError AnalyzeReport :=
  if truthy regex_pattern then
    match compile (regex_pattern.getD "") with
    | .error e => .error e
    | .ok rx => .ok (analyzeRun lines keyword (some rx) severity)
  else .ok (analyzeRun lines keyword none severity)

/-! ## Basic facts about the character classes and substring search -/

theorem isWordChar_of_isDigit {c : Char} (h : c.isDigit = true) : isWordChar c = true := by
  simp [isWordChar, Char.isAlphanum, h]

theorem isWordChar_of_isHexDigit {c : Char} (h : isHexDigit c = true) : isWordChar c = true := by
  by_cases hd : c.isDigit = true
  · exact isWordChar_of_isDigit hd
  · rw [Bool.not_eq_true] at hd
    simp only [isHexDigit, hd, Bool.false_or, Bool.or_eq_true, List.mem_cons,
      List.not_mem_nil, or_false, decide_eq_true_eq] at h
    rcases h with (rfl | rfl | rfl | rfl | rfl | rfl) | (rfl | rfl | rfl | rfl | rfl | rfl) <;>
      decide

theorem not_isDigit_of_not_word {c : Char} (h : isWordChar c = false) : c.isDigit = false := by
  cases hd : c.isDigit
  · rfl
  · rw [isWordChar_of_isDigit hd] at h; cases h

theorem not_isHexDigit_of_not_word {c : Char} (h : isWordChar c = false) :
    isHexDigit c = false := by
  cases hd : isHexDigit c
  · rfl
  · rw [isWordChar_of_isHexDigit hd] at h; cases h

theorem ne_zero_of_not_word {c : Char} (h : isWordChar c = false) : c ≠ '0' := by
  rintro rfl; cases h

theorem ne_x_of_not_word {c : Char} (h : isWordChar c = false) : c ≠ 'x' := by
  rintro rfl; cases h

theorem not_word_of_space {c : Char} (h : isSpaceChar c = true) : isWordChar c = false := by
  simp only [isSpaceChar, Bool.or_eq_true, decide_eq_true_eq] at h
  rcases h with ((((rfl | rfl) | rfl) | rfl) | rfl) | rfl <;> decide

theorem startsWith_iff (w l : List Char) : startsWith w l = true ↔ w <+: l := by
  induction w generalizing l with
  | nil => simp [startsWith]
  | cons p ps ih =>
    cases l with
    | nil => simp [startsWith]
    | cons c cs => simp [startsWith, List.cons_prefix_cons, ih]

theorem containsSub_iff (w l : List Char) : containsSub w l = true ↔ w <:+: l := by
  induction l with
  | nil =>
    rw [show containsSub w [] = decide (w = []) from rfl, decide_eq_true_eq, List.infix_nil]
  | cons c cs ih =>
    rw [show containsSub w (c :: cs) = (startsWith w (c :: cs) || containsSub w cs) from rfl]
    rw [Bool.or_eq_true, startsWith_iff, ih, List.infix_cons_iff]

theorem containsSub_nil_left (l : List Char) : containsSub [] l = true := by
  cases l <;> rfl

/-! ## Claims about the normalizer's gate and example (C1, C5) -/

/-- C1 (counterexample): on `"Error 0x1F at line 42"` the normalizer does not
return the spec's example string `"error <HEX> at line <NUM>"`: the leading
word keeps its capital `E`. -/
theorem normalize_example_not_lowercased :
    normalize_error "Error 0x1F at line 42" ≠ some "error <HEX> at line <NUM>" := by
  decide

/-- C1 (amended): `normalize_error "Error 0x1F at line 42"` is
`"Error <HEX> at line <NUM>"`; the hex literal and the standalone decimal are
masked and the case of every unmasked character is preserved. -/
theorem normalize_example_masks :
    normalize_error "Error 0x1F at line 42" = some "Error <HEX> at line <NUM>" := by
  decide

/-- C5: `normalize_error` returns no key exactly when no trigger word of
`"error", "failed", "exception", "warning"` occurs in the lowercased line;
and any returned key is the line passed through hex masking, then decimal
masking, then whitespace collapsing and trimming. -/
theorem normalize_gate_and_masking (s : String) :
    (normalize_error s = none ↔
      ∀ w ∈ triggerWords, ¬ (w.toList <:+: (s.toList.map Char.toLower))) ∧
    (normalize_error s = none ∨
      normalize_error s = some (String.mk (pyStrip (wsCollapse (numSub (hexSub s.toList)))))) := by
  have hiff : hasTrigger s.toList = true ↔
      ∃ w ∈ triggerWords, w.toList <:+: (s.toList.map Char.toLower) := by
    simp [hasTrigger, List.any_eq_true, containsSub_iff]
  by_cases h : hasTrigger s.toList = true
  · have h2 : normalize_error s = some (String.mk (normKey s.toList)) := by
      unfold normalize_error; rw [if_pos h]
    refine ⟨⟨fun hc => ?_, fun hall => ?_⟩, Or.inr ?_⟩
    · rw [h2] at hc; cases hc
    · exfalso
      rcases hiff.mp h with ⟨w, hw, hinf⟩
      exact hall w hw hinf
    · rw [h2]; rfl
  · have h2 : normalize_error s = none := by
      unfold normalize_error; rw [if_neg h]
    refine ⟨⟨fun _ w hw hinf => h (hiff.mpr ⟨w, hw, hinf⟩), fun _ => h2⟩, Or.inl h2⟩

/-! ## Claims about the line filter (C9, C10) -/

/-- C9: `match_line` is the conjunction of its supplied criteria, each a
case-insensitive containment or search test; a filter with no criteria
accepts every line; `severity="ERROR"` accepts the ERROR line of the spec's
scenario and rejects the INFO line. -/
theorem match_line_conjunction :
    (∀ (line : String) (kw : Option String) (rx : Option (String → Bool)) (sev : Option String),
      match_line line kw rx sev = true ↔
        ((truthy kw = true → containsCI (kw.getD "") line = true) ∧
         (truthy sev = true → containsCI (sev.getD "") line = true) ∧
         (∀ r, rx = some r → r line = true))) ∧
    (∀ line : String, match_line line none none none = true) ∧
    match_line "2024-01-01 ERROR disk full" none none (some "ERROR") = true ∧
    match_line "2024-01-01 INFO disk full" none none (some "ERROR") = false := by
  refine ⟨fun line kw rx sev => ?_, fun line => rfl, by decide, by decide⟩
  unfold match_line
  cases h1 : truthy kw <;> cases h2 : containsCI (kw.getD "") line <;>
    cases h3 : truthy sev <;> cases h4 : containsCI (sev.getD "") line <;>
      cases rx <;> simp [h1, h2, h3, h4]

/-- C10: an empty-string keyword or severity criterion is falsy in Python and
so treated as absent: the filter accepts every line, although the empty
string is a substring of every line. -/
theorem match_line_empty_criterion (line : String) :
    match_line line (some "") none none = true ∧
    match_line line none none (some "") = true ∧
    containsCI "" line = true := by
  exact ⟨rfl, rfl, containsSub_nil_left (line.toList.map Char.toLower)⟩

/-! ## Claim about fail-fast regex compilation (C8) -/

/-- C8: when the user-supplied regex text does not compile, `analyze_logs`
fails with the compilation error: the compile runs before the loop, so the
result is the error no matter what the line stream holds — no line is read
and no counter is touched. -/
theorem analyze_logs_fail_fast (compile : String → Except InvalidPatternError (String → Bool))
    (lines lines' : List String) (kw sev : Option String) (p : String)
    (e : InvalidPatternError) (hp : truthy (some p) = true)
    (hc : compile p = .error e) :
    analyze_logs compile lines kw (some p) sev = .error e ∧
    analyze_logs compile lines kw (some p) sev = analyze_logs compile lines' kw (some p) sev := by
  unfold analyze_logs
  rw [if_pos hp, if_pos hp, Option.getD_some, hc]
  exact ⟨rfl, rfl⟩

/-- Witness for C8 at the concrete pattern text `"("` and a compile function
that rejects it. -/
theorem analyze_logs_fail_fast_witness :
    truthy (some "(") = true ∧
    analyze_logs (fun _ => .error (InvalidPatternError.mk "unbalanced parenthesis")) ["line one"]
      none (some "(") none = .error (InvalidPatternError.mk "unbalanced parenthesis") := by
  refine ⟨by decide, ?_⟩
  exact (analyze_logs_fail_fast (fun _ => .error (InvalidPatternError.mk "unbalanced parenthesis"))
    ["line one"] [] none none "(" (InvalidPatternError.mk "unbalanced parenthesis")
    (by decide) rfl).1

/-! ## Claims about the structured-pattern analyzer (C2, C6, C7) -/

theorem classify_foldl (patterns : List (String × (String → Bool))) (i : Nat) (line : String)
    (acc : List Match) :
    patterns.foldl
      (fun acc2 q => if q.2 line then acc2 ++ [Match.mk i q.1 (rstripNl line)] else acc2) acc
      = acc ++ classifyLine i line patterns := by
  induction patterns generalizing acc with
  | nil => simp [classifyLine]
  | cons q ps ih =>
    rw [List.foldl_cons]
    by_cases h : q.2 line = true
    · rw [if_pos h, ih]
      simp [classifyLine, List.filterMap_cons, h]
    · rw [if_neg h, ih]
      simp [classifyLine, List.filterMap_cons, h]

theorem analyze_lines_eq_go (lines : List String) (patterns : List (String × (String → Bool))) :
    analyze_lines lines patterns = analyzeGo 1 lines patterns := by
  suffices h : ∀ (el : List String) (i : Nat) (acc : List Match),
      (enumFrom i el).foldl
        (fun acc p => patterns.foldl
          (fun acc2 q => if q.2 p.2 then acc2 ++ [Match.mk p.1 q.1 (rstripNl p.2)] else acc2) acc)
        acc = acc ++ analyzeGo i el patterns by
    simpa using h lines 1 []
  intro el
  induction el with
  | nil => intro i acc; simp [enumFrom, analyzeGo]
  | cons line rest ih =>
    intro i acc
    rw [show enumFrom i (line :: rest) = (i, line) :: enumFrom (i + 1) rest from rfl,
      List.foldl_cons, classify_foldl, ih]
    simp [analyzeGo]

theorem mem_classifyLine_line_no {m : Match} {i : Nat} {line : String}
    {patterns : List (String × (String → Bool))} (h : m ∈ classifyLine i line patterns) :
    m.line_no = i := by
  unfold classifyLine at h
  rw [List.mem_filterMap] at h
  rcases h with ⟨q, _, hq⟩
  by_cases hb : q.2 line = true
  · rw [if_pos hb] at hq
    injection hq with h2
    rw [← h2]
  · rw [if_neg hb] at hq
    cases hq

theorem mem_analyzeGo_le {m : Match} {patterns : List (String × (String → Bool))} :
    ∀ {i : Nat} {lines : List String}, m ∈ analyzeGo i lines patterns → i ≤ m.line_no := by
  intro i lines
  induction lines generalizing i with
  | nil => intro h; simp [analyzeGo] at h
  | cons line rest ih =>
    intro h
    rw [show analyzeGo i (line :: rest) patterns
        = classifyLine i line patterns ++ analyzeGo (i + 1) rest patterns from rfl] at h
    rcases List.mem_append.mp h with h | h
    · rw [mem_classifyLine_line_no h]
    · exact le_trans (Nat.le_succ i) (ih h)

theorem pairwise_const_le {l : List Match} {i : Nat} (h : ∀ m ∈ l, m.line_no = i) :
    l.Pairwise (fun a b => a.line_no ≤ b.line_no) := by
  induction l with
  | nil => exact List.Pairwise.nil
  | cons a l ih =>
    rw [List.pairwise_cons]
    refine ⟨fun b hb => ?_, ih fun m hm => h m (List.mem_cons_of_mem _ hm)⟩
    rw [h a (List.mem_cons_self _ _), h b (List.mem_cons_of_mem _ hb)]

theorem analyzeGo_pairwise (patterns : List (String × (String → Bool))) :
    ∀ (i : Nat) (lines : List String),
      (analyzeGo i lines patterns).Pairwise (fun a b => a.line_no ≤ b.line_no) := by
  intro i lines
  induction lines generalizing i with
  | nil => exact List.Pairwise.nil
  | cons line rest ih =>
    rw [show analyzeGo i (line :: rest) patterns
        = classifyLine i line patterns ++ analyzeGo (i + 1) rest patterns from rfl,
      List.pairwise_append]
    refine ⟨pairwise_const_le fun m hm => mem_classifyLine_line_no hm, ih (i + 1), ?_⟩
    intro a ha b hb
    rw [mem_classifyLine_line_no ha]
    exact le_trans (Nat.le_succ i) (mem_analyzeGo_le hb)

/-- C2 (counterexample): `"failed password"` matches both the ERROR and the
AUTH_FAIL pattern, so `analyze_lines` emits two `Match` records with the same
`line_no` — the emission order is not strictly increasing in `line_no`. -/
theorem analyze_lines_not_strictly_increasing :
    analyze_lines ["failed password"] DEFAULT_PATTERNS =
      [Match.mk 1 "ERROR" "failed password", Match.mk 1 "AUTH_FAIL" "failed password"] ∧
    ¬ (analyze_lines ["failed password"] DEFAULT_PATTERNS).Pairwise
        (fun a b => a.line_no < b.line_no) := by
  decide

/-- C2 (amended): across the `Match` records `analyze_lines` emits, `line_no`
is non-decreasing in emission order; records of one line share its number, so
the order is not strict on multi-match lines. -/
theorem analyze_lines_line_no_monotone (lines : List String)
    (patterns : List (String × (String → Bool))) :
    (analyze_lines lines patterns).Pairwise (fun a b => a.line_no ≤ b.line_no) := by
  rw [analyze_lines_eq_go]
  exact analyzeGo_pairwise patterns 1 lines

theorem classifyLine_eq_filter (i : Nat) (line : String)
    (patterns : List (String × (String → Bool))) :
    classifyLine i line patterns =
      (patterns.filter fun q => q.2 line).map fun q => Match.mk i q.1 (rstripNl line) := by
  induction patterns with
  | nil => rfl
  | cons q ps ih =>
    by_cases h : q.2 line = true
    · simp [classifyLine, List.filterMap_cons, List.filter_cons, h] at ih ⊢
      exact ih
    · simp [classifyLine, List.filterMap_cons, List.filter_cons, h] at ih ⊢
      exact ih

theorem analyzeGo_eq_join (patterns : List (String × (String → Bool))) :
    ∀ (i : Nat) (lines : List String),
      analyzeGo i lines patterns =
        ((enumFrom i lines).map fun p => classifyLine p.1 p.2 patterns).flatten := by
  intro i lines
  induction lines generalizing i with
  | nil => rfl
  | cons line rest ih => simp [analyzeGo, enumFrom, ih]

/-- C6: `analyze_lines` emits, for each line in turn, exactly one `Match` per
pattern whose matcher hits the line — a line matching k tags yields k records
— and those records follow the pattern registry's registration order. -/
theorem analyze_lines_one_match_per_tag (lines : List String)
    (patterns : List (String × (String → Bool))) :
    analyze_lines lines patterns =
      ((enumFrom 1 lines).map fun p =>
        (patterns.filter fun q => q.2 p.2).map fun q => Match.mk p.1 q.1 (rstripNl p.2)).flatten := by
  rw [analyze_lines_eq_go, analyzeGo_eq_join]
  simp only [classifyLine_eq_filter]

theorem sumCounts_bump (out : List (String × Nat)) (t : String) :
    sumCounts (bump out t) = sumCounts out + 1 := by
  induction out with
  | nil => rfl
  | cons kv rest ih =>
    rcases kv with ⟨k, v⟩
    by_cases h : k = t
    · simp [bump, h, sumCounts]
      omega
    · simp [bump, h, sumCounts] at ih ⊢
      omega

theorem summary_foldl (ms : List Match) :
    ∀ out, sumCounts (ms.foldl (fun o m => bump o m.tag) out) = sumCounts out + ms.length := by
  induction ms with
  | nil => intro out; simp
  | cons m rest ih =>
    intro out
    rw [List.foldl_cons, ih, sumCounts_bump]
    simp
    omega

/-- C7: the tag-mode counts of `summary` add up to the number of `Match`
records — the number of (line, tag) match pairs — whatever the list of
matches (and so not, in general, the number of distinct matched lines). -/
theorem summary_counts_total (ms : List Match) : sumCounts (summary ms) = ms.length := by
  unfold summary
  rw [summary_foldl]
  simp [sumCounts]

/-! ## Claims about the ranking operation (C3) -/

theorem ordIns_perm (x : String × Nat) (l : List (String × Nat)) :
    (ordIns x l).Perm (x :: l) := by
  induction l with
  | nil => exact List.Perm.refl _
  | cons y ys ih =>
    by_cases h : y.2 ≤ x.2
    · rw [show ordIns x (y :: ys) = x :: y :: ys from by simp [ordIns, h]]
    · rw [show ordIns x (y :: ys) = y :: ordIns x ys from by simp [ordIns, h]]
      exact (List.Perm.cons y ih).trans (List.Perm.swap x y ys)

theorem sortByCountDesc_perm (l : List (String × Nat)) : (sortByCountDesc l).Perm l := by
  induction l with
  | nil => exact List.Perm.refl _
  | cons x xs ih => exact (ordIns_perm x (sortByCountDesc xs)).trans (List.Perm.cons x ih)

theorem ordIns_sorted {x : String × Nat} {l : List (String × Nat)}
    (h : l.Pairwise (fun a b => b.2 ≤ a.2)) :
    (ordIns x l).Pairwise (fun a b => b.2 ≤ a.2) := by
  induction l with
  | nil => simp [ordIns]
  | cons y ys ih =>
    rw [List.pairwise_cons] at h
    by_cases hc : y.2 ≤ x.2
    · rw [show ordIns x (y :: ys) = x :: y :: ys from by simp [ordIns, hc]]
      rw [List.pairwise_cons]
      constructor
      · intro z hz
        rcases List.mem_cons.mp hz with rfl | hz2
        · exact hc
        · exact le_trans (h.1 z hz2) hc
      · exact List.pairwise_cons.mpr h
    · rw [show ordIns x (y :: ys) = y :: ordIns x ys from by simp [ordIns, hc]]
      rw [List.pairwise_cons]
      refine ⟨fun z hz => ?_, ih h.2⟩
      have hz' := (ordIns_perm x ys).mem_iff.mp hz
      rcases List.mem_cons.mp hz' with rfl | hz2
      · exact le_of_not_le hc
      · exact h.1 z hz2

theorem sortByCountDesc_sorted (l : List (String × Nat)) :
    (sortByCountDesc l).Pairwise (fun a b => b.2 ≤ a.2) := by
  induction l with
  | nil => exact List.Pairwise.nil
  | cons x xs ih => exact ordIns_sorted ih

theorem ordIns_filter (x : String × Nat) (l : List (String × Nat)) (c : Nat)
    (h : l.Pairwise (fun a b => b.2 ≤ a.2)) :
    (ordIns x l).filter (fun p => p.2 = c) =
      if x.2 = c then x :: l.filter (fun p => p.2 = c) else l.filter (fun p => p.2 = c) := by
  induction l with
  | nil =>
    rw [show ordIns x [] = [x] from rfl]
    by_cases hx : x.2 = c <;> simp [List.filter_cons, hx]
  | cons y ys ih =>
    rw [List.pairwise_cons] at h
    by_cases hc : y.2 ≤ x.2
    · rw [show ordIns x (y :: ys) = x :: y :: ys from by simp [ordIns, hc]]
      by_cases hx : x.2 = c <;> simp [List.filter_cons, hx]
    · rw [show ordIns x (y :: ys) = y :: ordIns x ys from by simp [ordIns, hc]]
      have hlt : x.2 < y.2 := Nat.lt_of_not_le hc
      by_cases hx : x.2 = c
      · have hy : ¬(y.2 = c) := by omega
        simp [List.filter_cons, ih h.2, hx, hy]
      · simp [List.filter_cons, ih h.2, hx]

theorem sortByCountDesc_filter (l : List (String × Nat)) (c : Nat) :
    (sortByCountDesc l).filter (fun p => p.2 = c) = l.filter (fun p => p.2 = c) := by
  induction l with
  | nil => rfl
  | cons x xs ih =>
    rw [show sortByCountDesc (x :: xs) = ordIns x (sortByCountDesc xs) from rfl,
      ordIns_filter x _ c (sortByCountDesc_sorted xs), List.filter_cons]
    by_cases hx : x.2 = c <;> simp [hx, ih]

/-- C3 (counterexample): a counter holding two keys of equal count in the
order `"b error"` then `"a error"` is ranked by `most_common` in that
insertion order, not in ascending lexicographic key order. -/
theorem most_common_ties_not_lexicographic :
    most_common [("b error", 1), ("a error", 1)] 2 = [("b error", 1), ("a error", 1)] ∧
    most_common [("b error", 1), ("a error", 1)] 2 ≠ [("a error", 1), ("b error", 1)] := by
  decide

/-- C3 (amended): `most_common` returns at most `top_n` pairs, sorted by
descending count with ties kept in the counter's insertion order (within any
one count, the output's keys are a prefix of the counter's keys of that
count); `top_n ≤ 0` yields the empty sequence and a `top_n` at least the
number of keys yields all of them. -/
theorem most_common_rank (counter : List (String × Nat)) (n : Int) :
    (n ≤ 0 → most_common counter n = []) ∧
    (most_common counter n).length ≤ n.toNat ∧
    (most_common counter n).Pairwise (fun a b => b.2 ≤ a.2) ∧
    (counter.length ≤ n.toNat → (most_common counter n).Perm counter) ∧
    (∀ c : Nat, (most_common counter n).filter (fun p => p.2 = c) <+:
      counter.filter (fun p => p.2 = c)) := by
  by_cases hn : n ≤ 0
  · have h0 : most_common counter n = [] := by unfold most_common; rw [if_pos hn]
    rw [h0]
    refine ⟨fun _ => rfl, Nat.zero_le _, List.Pairwise.nil, fun hlen => ?_, fun c => List.nil_prefix⟩
    have ht : n.toNat = 0 := Int.toNat_of_nonpos hn
    rw [ht, Nat.le_zero] at hlen
    rw [List.eq_nil_of_length_eq_zero hlen]
  · have h0 : most_common counter n = (sortByCountDesc counter).take n.toNat := by
      unfold most_common; rw [if_neg hn]
    rw [h0]
    refine ⟨fun h => absurd h hn, ?_, ?_, ?_, ?_⟩
    · exact List.length_take_le n.toNat _
    · exact (sortByCountDesc_sorted counter).sublist (List.take_sublist _ _)
    · intro hlen
      have hlen2 : (sortByCountDesc counter).length ≤ n.toNat := by
        rw [(sortByCountDesc_perm counter).length_eq]
        exact hlen
      rw [List.take_of_length_le hlen2]
      exact sortByCountDesc_perm counter
    · intro c
      have h1 : (sortByCountDesc counter).take n.toNat <+: sortByCountDesc counter :=
        List.take_prefix _ _
      have h2 := h1.filter (fun p => decide (p.2 = c))
      rw [sortByCountDesc_filter] at h2
      exact h2

/-! ## Idempotence of the normalizer's pipeline (C4)

Stage 1: a string with no occurrence of `0x[0-9a-fA-F]+` passes `hexGo`
unchanged, and `hexGo`'s output has no such occurrence. -/

theorem foldl_hstep_dead (l : List Char) : l.foldl hstep .dead = .dead := by
  induction l with
  | nil => rfl
  | cons c cs ih => exact ih

theorem hexOk_ne_dead {s : HC} {l : List Char} (h : hexOk s l) : s ≠ .dead := by
  rintro rfl
  exact h (foldl_hstep_dead l)

theorem hexOk_append {s : HC} {a b : List Char} (h : hexOk s (a ++ b)) : hexOk s a := by
  intro hd
  apply h
  rw [List.foldl_append, hd, foldl_hstep_dead]

theorem hexOk_cons_of {s s2 : HC} {c : Char} (he : hstep s c = s2) {l : List Char}
    (h : hexOk s2 l) : hexOk s (c :: l) := by
  unfold hexOk at h ⊢
  rw [List.foldl_cons, he]
  exact h

theorem hexOk_cons_elim {s : HC} {c : Char} {l : List Char} (h : hexOk s (c :: l)) :
    hexOk (hstep s c) l := h

theorem ne_zero_of_not_hex {c : Char} (h : isHexDigit c = false) : c ≠ '0' := by
  rintro rfl
  exact absurd h (by decide)

theorem hstep_norm_of {c : Char} (h0 : c ≠ '0') : hstep .norm c = .norm := by
  simp [hstep, h0]

theorem hstep_seen0_of {c : Char} (hx : c ≠ 'x') (h0 : c ≠ '0') : hstep .seen0 c = .norm := by
  simp [hstep, hx, h0]

theorem hstep_seen0x_of {c : Char} (hh : isHexDigit c = false) : hstep .seen0x c = .norm := by
  simp [hstep, hh, ne_zero_of_not_hex hh]

theorem hstep_nonword {s : HC} (hs : s ≠ .dead) {c : Char} (hw : isWordChar c = false) :
    hstep s c = .norm := by
  cases s with
  | norm => exact hstep_norm_of (ne_zero_of_not_word hw)
  | seen0 => exact hstep_seen0_of (ne_x_of_not_word hw) (ne_zero_of_not_word hw)
  | seen0x => exact hstep_seen0x_of (not_isHexDigit_of_not_word hw)
  | dead => exact absurd rfl hs

theorem hexOk_hexPh_append {s : HC} (hs : s ≠ .dead) {l : List Char} (h : hexOk .norm l) :
    hexOk s (hexPh ++ l) := by
  unfold hexOk at h ⊢
  rw [List.foldl_append]
  cases s with
  | norm => exact h
  | seen0 => exact h
  | seen0x => exact h
  | dead => exact absurd rfl hs

theorem hexGo_id (l : List Char) :
    (hexOk .norm l → hexGo .norm l = l) ∧
    (hexOk .seen0 l → hexGo .seen0 l = '0' :: l) ∧
    (hexOk .seen0x l → hexGo .seen0x l = '0' :: 'x' :: l) := by
  induction l with
  | nil => exact ⟨fun _ => rfl, fun _ => rfl, fun _ => rfl⟩
  | cons c cs ih =>
    refine ⟨fun h => ?_, fun h => ?_, fun h => ?_⟩
    · by_cases hc : c = '0'
      · subst hc
        rw [show hexGo .norm ('0' :: cs) = hexGo .seen0 cs from by simp [hexGo]]
        exact ih.2.1 h
      · have h' : hexOk .norm cs := by
          have h2 := hexOk_cons_elim h
          rwa [hstep_norm_of hc] at h2
        rw [show hexGo .norm (c :: cs) = c :: hexGo .norm cs from by simp [hexGo, hc],
          ih.1 h']
    · by_cases hx : c = 'x'
      · subst hx
        rw [show hexGo .seen0 ('x' :: cs) = hexGo .seen0x cs from by simp [hexGo]]
        exact ih.2.2 h
      · by_cases hc : c = '0'
        · subst hc
          rw [show hexGo .seen0 ('0' :: cs) = '0' :: hexGo .seen0 cs from by simp [hexGo]]
          rw [ih.2.1 h]
        · have h' : hexOk .norm cs := by
            have h2 := hexOk_cons_elim h
            rwa [hstep_seen0_of hx hc] at h2
          rw [show hexGo .seen0 (c :: cs) = '0' :: c :: hexGo .norm cs from by
            simp [hexGo, hx, hc], ih.1 h']
    · by_cases hh : isHexDigit c = true
      · have h2 := hexOk_cons_elim h
        rw [show hstep .seen0x c = .dead from by simp [hstep, hh]] at h2
        exact (h2 (foldl_hstep_dead cs)).elim
      · rw [Bool.not_eq_true] at hh
        have h' : hexOk .norm cs := by
          have h2 := hexOk_cons_elim h
          rwa [hstep_seen0x_of hh] at h2
        rw [show hexGo .seen0x (c :: cs) = '0' :: 'x' :: c :: hexGo .norm cs from by
          simp [hexGo, hh], ih.1 h']

theorem hexGo_ok (l : List Char) :
    hexOk .norm (hexGo .norm l) ∧ hexOk .norm (hexGo .seen0 l) ∧
    hexOk .norm (hexGo .seen0x l) ∧ hexOk .norm (hexGo .inhex l) ∧
    hexOk .seen0 (hexGo .seen0 l) ∧ hexOk .seen0 (hexGo .seen0x l) ∧
    hexOk .seen0 (hexGo .inhex l) := by
  induction l with
  | nil => refine ⟨?_, ?_, ?_, ?_, ?_, ?_, ?_⟩ <;> decide
  | cons c cs ih =>
    obtain ⟨ihA, ihB, ihC, ihD, ihE, ihF, ihG⟩ := ih
    refine ⟨?_, ?_, ?_, ?_, ?_, ?_, ?_⟩
    · by_cases hc : c = '0'
      · subst hc
        rw [show hexGo .norm ('0' :: cs) = hexGo .seen0 cs from by simp [hexGo]]
        exact ihB
      · rw [show hexGo .norm (c :: cs) = c :: hexGo .norm cs from by simp [hexGo, hc]]
        exact hexOk_cons_of (hstep_norm_of hc) ihA
    · by_cases hx : c = 'x'
      · subst hx
        rw [show hexGo .seen0 ('x' :: cs) = hexGo .seen0x cs from by simp [hexGo]]
        exact ihC
      · by_cases hc : c = '0'
        · subst hc
          rw [show hexGo .seen0 ('0' :: cs) = '0' :: hexGo .seen0 cs from by simp [hexGo]]
          exact hexOk_cons_of rfl ihE
        · rw [show hexGo .seen0 (c :: cs) = '0' :: c :: hexGo .norm cs from by
            simp [hexGo, hx, hc]]
          exact hexOk_cons_of rfl (hexOk_cons_of (hstep_seen0_of hx hc) ihA)
    · by_cases hh : isHexDigit c = true
      · rw [show hexGo .seen0x (c :: cs) = hexGo .inhex cs from by simp [hexGo, hh]]
        exact ihD
      · rw [Bool.not_eq_true] at hh
        rw [show hexGo .seen0x (c :: cs) = '0' :: 'x' :: c :: hexGo .norm cs from by
          simp [hexGo, hh]]
        exact hexOk_cons_of rfl (hexOk_cons_of rfl
          (hexOk_cons_of (hstep_seen0x_of hh) ihA))
    · by_cases hh : isHexDigit c = true
      · rw [show hexGo .inhex (c :: cs) = hexGo .inhex cs from by simp [hexGo, hh]]
        exact ihD
      · rw [Bool.not_eq_true] at hh
        rw [show hexGo .inhex (c :: cs) = hexPh ++ c :: hexGo .norm cs from by
          simp [hexGo, hh]]
        exact hexOk_hexPh_append (by intro h2; cases h2)
          (hexOk_cons_of (hstep_norm_of (ne_zero_of_not_hex hh)) ihA)
    · by_cases hx : c = 'x'
      · subst hx
        rw [show hexGo .seen0 ('x' :: cs) = hexGo .seen0x cs from by simp [hexGo]]
        exact ihF
      · by_cases hc : c = '0'
        · subst hc
          rw [show hexGo .seen0 ('0' :: cs) = '0' :: hexGo .seen0 cs from by simp [hexGo]]
          exact hexOk_cons_of rfl ihE
        · rw [show hexGo .seen0 (c :: cs) = '0' :: c :: hexGo .norm cs from by
            simp [hexGo, hx, hc]]
          exact hexOk_cons_of rfl (hexOk_cons_of (hstep_seen0_of hx hc) ihA)
    · by_cases hh : isHexDigit c = true
      · rw [show hexGo .seen0x (c :: cs) = hexGo .inhex cs from by simp [hexGo, hh]]
        exact ihG
      · rw [Bool.not_eq_true] at hh
        rw [show hexGo .seen0x (c :: cs) = '0' :: 'x' :: c :: hexGo .norm cs from by
          simp [hexGo, hh]]
        exact hexOk_cons_of rfl (hexOk_cons_of rfl
          (hexOk_cons_of (hstep_seen0x_of hh) ihA))
    · by_cases hh : isHexDigit c = true
      · rw [show hexGo .inhex (c :: cs) = hexGo .inhex cs from by simp [hexGo, hh]]
        exact ihG
      · rw [Bool.not_eq_true] at hh
        rw [show hexGo .inhex (c :: cs) = hexPh ++ c :: hexGo .norm cs from by
          simp [hexGo, hh]]
        exact hexOk_hexPh_append (by intro h2; cases h2)
          (hexOk_cons_of (hstep_norm_of (ne_zero_of_not_hex hh)) ihA)

/-! Stage 2: a string with no delimited digit run passes `numGo` unchanged,
`numGo`'s output has no delimited digit run, and `numGo` preserves the
absence of hex-literal occurrences. -/

theorem foldl_nstep_dead (l : List Char) : l.foldl nstep .dead = .dead := by
  induction l with
  | nil => rfl
  | cons c cs ih => exact ih

theorem numOk_cons_of {s s2 : NC} {c : Char} (he : nstep s c = s2) {l : List Char}
    (h : numOk s2 l) : numOk s (c :: l) := by
  unfold numOk at h ⊢
  rw [List.foldl_cons, he]
  exact h

theorem numOk_cons_elim {s : NC} {c : Char} {l : List Char} (h : numOk s (c :: l)) :
    numOk (nstep s c) l := h

theorem numOk_ne_dead {s : NC} {l : List Char} (h : numOk s l) : s ≠ .dead := by
  rintro rfl
  exact h.1 (foldl_nstep_dead l)

theorem numOk_append_space {s : NC} {a t : List Char} (ht : ∀ c ∈ t, isSpaceChar c = true)
    (h : numOk s (a ++ t)) : numOk s a := by
  cases hf : a.foldl nstep s with
  | dead =>
    exfalso
    apply h.1
    rw [List.foldl_append, hf, foldl_nstep_dead]
  | run =>
    exfalso
    cases t with
    | nil =>
      apply h.2
      rw [List.append_nil, hf]
    | cons c t' =>
      have hw := not_word_of_space (ht c (List.mem_cons_self c t'))
      have hrc : nstep .run c = .dead := by
        simp [nstep, not_isDigit_of_not_word hw, hw]
      apply h.1
      rw [List.foldl_append, hf, List.foldl_cons, hrc, foldl_nstep_dead]
  | scn p => exact ⟨by simp [hf], by simp [hf]⟩

theorem foldl_nstep_digits_run {ds : List Char} (hd : ∀ d ∈ ds, d.isDigit = true) :
    ds.foldl nstep .run = .run := by
  induction ds with
  | nil => rfl
  | cons d ds ih =>
    rw [List.foldl_cons, show nstep .run d = .run from by
      simp [nstep, hd d (List.mem_cons_self d ds)]]
    exact ih fun x hx => hd x (List.mem_cons_of_mem d hx)

theorem foldl_nstep_digits_enter {ds : List Char} (hne : ds ≠ [])
    (hd : ∀ d ∈ ds, d.isDigit = true) : ds.foldl nstep (.scn false) = .run := by
  cases ds with
  | nil => exact absurd rfl hne
  | cons d ds' =>
    rw [List.foldl_cons, show nstep (.scn false) d = .run from by
      simp [nstep, hd d (List.mem_cons_self d ds')]]
    exact foldl_nstep_digits_run fun x hx => hd x (List.mem_cons_of_mem d hx)

theorem foldl_nstep_numPh : numPh.foldl nstep (.scn false) = .scn false := rfl

theorem numGo_id (l : List Char) :
    (∀ p, numOk (.scn p) l → numGo (.scan p) l = l) ∧
    (∀ buf, numOk .run l → numGo (.run buf) l = buf.reverse ++ l) := by
  induction l with
  | nil =>
    refine ⟨fun p _ => rfl, fun buf h => ?_⟩
    exact absurd rfl h.2
  | cons c cs ih =>
    constructor
    · intro p h
      cases p with
      | false =>
        by_cases hd : c.isDigit = true
        · rw [show numGo (.scan false) (c :: cs) = numGo (.run [c]) cs from by simp [numGo, hd]]
          have h' : numOk .run cs := by
            have h2 := numOk_cons_elim h
            rwa [show nstep (.scn false) c = .run from by simp [nstep, hd]] at h2
          rw [ih.2 [c] h']
          rfl
        · rw [Bool.not_eq_true] at hd
          have h' : numOk (.scn (isWordChar c)) cs := by
            have h2 := numOk_cons_elim h
            rwa [show nstep (.scn false) c = .scn (isWordChar c) from by simp [nstep, hd]] at h2
          rw [show numGo (.scan false) (c :: cs) = c :: numGo (.scan (isWordChar c)) cs from by
            simp [numGo, hd], ih.1 _ h']
      | true =>
        have h' : numOk (.scn (isWordChar c)) cs := by
          have h2 := numOk_cons_elim h
          rwa [show nstep (.scn true) c = .scn (isWordChar c) from by simp [nstep]] at h2
        rw [show numGo (.scan true) (c :: cs) = c :: numGo (.scan (isWordChar c)) cs from by
          simp [numGo], ih.1 _ h']
    · intro buf h
      by_cases hd : c.isDigit = true
      · rw [show numGo (.run buf) (c :: cs) = numGo (.run (c :: buf)) cs from by
          simp [numGo, hd]]
        have h' : numOk .run cs := by
          have h2 := numOk_cons_elim h
          rwa [show nstep .run c = .run from by simp [nstep, hd]] at h2
        rw [ih.2 (c :: buf) h']
        simp
      · rw [Bool.not_eq_true] at hd
        by_cases hw : isWordChar c = true
        · rw [show numGo (.run buf) (c :: cs) = buf.reverse ++ c :: numGo (.scan true) cs from by
            simp [numGo, hd, hw]]
          have h' : numOk (.scn true) cs := by
            have h2 := numOk_cons_elim h
            rwa [show nstep .run c = .scn true from by simp [nstep, hd, hw]] at h2
          rw [ih.1 true h']
        · rw [Bool.not_eq_true] at hw
          exfalso
          have h2 := numOk_cons_elim h
          rw [show nstep .run c = .dead from by simp [nstep, hd, hw]] at h2
          exact h2.1 (foldl_nstep_dead cs)

theorem numGo_numOk (l : List Char) :
    (∀ p, numOk (.scn p) (numGo (.scan p) l)) ∧
    (∀ buf, buf ≠ [] → (∀ d ∈ buf, d.isDigit = true) →
      numOk (.scn false) (numGo (.run buf) l)) := by
  induction l with
  | nil =>
    refine ⟨fun p => ⟨by simp [numGo], by simp [numGo]⟩, fun buf _ _ => ?_⟩
    rw [show numGo (.run buf) [] = numPh from rfl]
    decide
  | cons c cs ih =>
    constructor
    · intro p
      cases p with
      | false =>
        by_cases hd : c.isDigit = true
        · rw [show numGo (.scan false) (c :: cs) = numGo (.run [c]) cs from by simp [numGo, hd]]
          exact ih.2 [c] (by simp) (by simp [hd])
        · rw [Bool.not_eq_true] at hd
          rw [show numGo (.scan false) (c :: cs) = c :: numGo (.scan (isWordChar c)) cs from by
            simp [numGo, hd]]
          exact numOk_cons_of (by simp [nstep, hd]) (ih.1 (isWordChar c))
      | true =>
        rw [show numGo (.scan true) (c :: cs) = c :: numGo (.scan (isWordChar c)) cs from by
          simp [numGo]]
        exact numOk_cons_of (by simp [nstep]) (ih.1 (isWordChar c))
    · intro buf hne hdig
      by_cases hd : c.isDigit = true
      · rw [show numGo (.run buf) (c :: cs) = numGo (.run (c :: buf)) cs from by
          simp [numGo, hd]]
        refine ih.2 (c :: buf) (by simp) ?_
        intro d hdm
        rcases List.mem_cons.mp hdm with rfl | hdm2
        · exact hd
        · exact hdig d hdm2
      · rw [Bool.not_eq_true] at hd
        by_cases hw : isWordChar c = true
        · rw [show numGo (.run buf) (c :: cs) = buf.reverse ++ c :: numGo (.scan true) cs from by
            simp [numGo, hd, hw]]
          have hrev : buf.reverse.foldl nstep (.scn false) = .run :=
            foldl_nstep_digits_enter (by simpa using hne) (by simpa using hdig)
          have hmain := ih.1 true
          unfold numOk at hmain ⊢
          rw [List.foldl_append, hrev, List.foldl_cons,
            show nstep .run c = .scn true from by simp [nstep, hd, hw]]
          exact hmain
        · rw [Bool.not_eq_true] at hw
          rw [show numGo (.run buf) (c :: cs) = numPh ++ c :: numGo (.scan false) cs from by
            simp [numGo, hd, hw]]
          have hmain := ih.1 false
          unfold numOk at hmain ⊢
          rw [List.foldl_append, foldl_nstep_numPh, List.foldl_cons,
            show nstep (.scn false) c = .scn false from by simp [nstep, hd, hw]]
          exact hmain

theorem foldl_hstep_numPh {s : HC} (hs : s ≠ .dead) : numPh.foldl hstep s = .norm := by
  cases s with
  | norm => rfl
  | seen0 => rfl
  | seen0x => rfl
  | dead => exact absurd rfl hs

theorem numGo_hexOk (l : List Char) :
    (∀ (s : HC) (p : Bool), hexOk s l → hexOk s (numGo (.scan p) l)) ∧
    (∀ (s : HC) (buf : List Char), hexOk (buf.reverse.foldl hstep s) l →
      hexOk s (numGo (.run buf) l)) := by
  induction l with
  | nil =>
    refine ⟨fun s p h => h, fun s buf h => ?_⟩
    have ht : buf.reverse.foldl hstep s ≠ .dead := h
    have hs : s ≠ .dead := by
      rintro rfl
      exact ht (foldl_hstep_dead buf.reverse)
    rw [show numGo (.run buf) [] = numPh from rfl]
    unfold hexOk
    rw [foldl_hstep_numPh hs]
    simp
  | cons c cs ih =>
    constructor
    · intro s p h
      cases p with
      | false =>
        by_cases hd : c.isDigit = true
        · rw [show numGo (.scan false) (c :: cs) = numGo (.run [c]) cs from by simp [numGo, hd]]
          exact ih.2 s [c] (hexOk_cons_elim h)
        · rw [Bool.not_eq_true] at hd
          rw [show numGo (.scan false) (c :: cs) = c :: numGo (.scan (isWordChar c)) cs from by
            simp [numGo, hd]]
          exact hexOk_cons_of rfl (ih.1 (hstep s c) (isWordChar c) (hexOk_cons_elim h))
      | true =>
        rw [show numGo (.scan true) (c :: cs) = c :: numGo (.scan (isWordChar c)) cs from by
          simp [numGo]]
        exact hexOk_cons_of rfl (ih.1 (hstep s c) (isWordChar c) (hexOk_cons_elim h))
    · intro s buf h
      by_cases hd : c.isDigit = true
      · rw [show numGo (.run buf) (c :: cs) = numGo (.run (c :: buf)) cs from by
          simp [numGo, hd]]
        apply ih.2 s (c :: buf)
        rw [List.reverse_cons, List.foldl_append]
        exact hexOk_cons_elim h
      · rw [Bool.not_eq_true] at hd
        by_cases hw : isWordChar c = true
        · rw [show numGo (.run buf) (c :: cs) = buf.reverse ++ c :: numGo (.scan true) cs from by
            simp [numGo, hd, hw]]
          have hmain := ih.1 (hstep (buf.reverse.foldl hstep s) c) true (hexOk_cons_elim h)
          unfold hexOk at hmain ⊢
          rw [List.foldl_append, List.foldl_cons]
          exact hmain
        · rw [Bool.not_eq_true] at hw
          rw [show numGo (.run buf) (c :: cs) = numPh ++ c :: numGo (.scan false) cs from by
            simp [numGo, hd, hw]]
          have ht : buf.reverse.foldl hstep s ≠ .dead := hexOk_ne_dead h
          have hs : s ≠ .dead := by
            rintro rfl
            exact ht (foldl_hstep_dead buf.reverse)
          have h2 : hexOk (hstep (buf.reverse.foldl hstep s) c) cs := hexOk_cons_elim h
          rw [hstep_nonword ht hw] at h2
          have hmain := ih.1 .norm false h2
          unfold hexOk at hmain ⊢
          rw [List.foldl_append, foldl_hstep_numPh hs, List.foldl_cons,
            hstep_norm_of (ne_zero_of_not_word hw)]
          exact hmain

/-! Stage 3: collapsed whitespace passes `wsGo` unchanged, `wsGo`'s output is
collapsed, stripping preserves all three invariants, and stripping is
idempotent. -/

theorem foldl_wstep_dead (l : List Char) : l.foldl wstep .dead = .dead := by
  induction l with
  | nil => rfl
  | cons c cs ih => exact ih

theorem wsOk_cons_of {s s2 : WC} {c : Char} (he : wstep s c = s2) {l : List Char}
    (h : wsOk s2 l) : wsOk s (c :: l) := by
  unfold wsOk at h ⊢
  rw [List.foldl_cons, he]
  exact h

theorem wsOk_cons_elim {s : WC} {c : Char} {l : List Char} (h : wsOk s (c :: l)) :
    wsOk (wstep s c) l := h

theorem wsOk_append {s : WC} {a b : List Char} (h : wsOk s (a ++ b)) : wsOk s a := by
  intro hd
  apply h
  rw [List.foldl_append, hd, foldl_wstep_dead]

theorem wsGo_hexOk (l : List Char) :
    (∀ s : HC, hexOk s l → hexOk s (wsGo false l)) ∧
    (hexOk .norm l → hexOk .norm (wsGo true l)) := by
  induction l with
  | nil => exact ⟨fun s h => h, fun h => h⟩
  | cons c cs ih =>
    constructor
    · intro s h
      by_cases hsp : isSpaceChar c = true
      · rw [show wsGo false (c :: cs) = ' ' :: wsGo true cs from by simp [wsGo, hsp]]
        have hs := hexOk_ne_dead h
        have h2 : hexOk .norm cs := by
          have h3 := hexOk_cons_elim h
          rwa [hstep_nonword hs (not_word_of_space hsp)] at h3
        exact hexOk_cons_of (hstep_nonword hs (by decide)) (ih.2 h2)
      · rw [show wsGo false (c :: cs) = c :: wsGo false cs from by simp [wsGo, hsp]]
        exact hexOk_cons_of rfl (ih.1 (hstep s c) (hexOk_cons_elim h))
    · intro h
      by_cases hsp : isSpaceChar c = true
      · rw [show wsGo true (c :: cs) = wsGo true cs from by simp [wsGo, hsp]]
        have h2 : hexOk .norm cs := by
          have h3 := hexOk_cons_elim h
          rwa [hstep_nonword (by decide) (not_word_of_space hsp)] at h3
        exact ih.2 h2
      · rw [show wsGo true (c :: cs) = c :: wsGo false cs from by simp [wsGo, hsp]]
        exact hexOk_cons_of rfl (ih.1 (hstep .norm c) (hexOk_cons_elim h))

theorem wsGo_numOk (l : List Char) :
    (∀ s : NC, numOk s l → numOk s (wsGo false l)) ∧
    (numOk (.scn false) l → numOk (.scn false) (wsGo true l)) := by
  induction l with
  | nil => exact ⟨fun s h => h, fun h => h⟩
  | cons c cs ih =>
    constructor
    · intro s h
      by_cases hsp : isSpaceChar c = true
      · have hw := not_word_of_space hsp
        have hd := not_isDigit_of_not_word hw
        cases s with
        | dead => exact absurd rfl (numOk_ne_dead h)
        | run =>
          exfalso
          have h2 := numOk_cons_elim h
          rw [show nstep .run c = .dead from by simp [nstep, hd, hw]] at h2
          exact h2.1 (foldl_nstep_dead cs)
        | scn p =>
          rw [show wsGo false (c :: cs) = ' ' :: wsGo true cs from by simp [wsGo, hsp]]
          have h2 : numOk (.scn false) cs := by
            have h3 := numOk_cons_elim h
            rwa [show nstep (.scn p) c = .scn false from by simp [nstep, hd, hw]] at h3
          exact numOk_cons_of (by cases p <;> decide) (ih.2 h2)
      · rw [show wsGo false (c :: cs) = c :: wsGo false cs from by simp [wsGo, hsp]]
        exact numOk_cons_of rfl (ih.1 (nstep s c) (numOk_cons_elim h))
    · intro h
      by_cases hsp : isSpaceChar c = true
      · have hw := not_word_of_space hsp
        have hd := not_isDigit_of_not_word hw
        rw [show wsGo true (c :: cs) = wsGo true cs from by simp [wsGo, hsp]]
        have h2 : numOk (.scn false) cs := by
          have h3 := numOk_cons_elim h
          rwa [show nstep (.scn false) c = .scn false from by simp [nstep, hd, hw]] at h3
        exact ih.2 h2
      · rw [show wsGo true (c :: cs) = c :: wsGo false cs from by simp [wsGo, hsp]]
        exact numOk_cons_of rfl (ih.1 (nstep (.scn false) c) (numOk_cons_elim h))

theorem wsGo_wsOk (l : List Char) :
    wsOk (.ok false) (wsGo false l) ∧ wsOk (.ok true) (wsGo true l) := by
  induction l with
  | nil => exact ⟨by decide, by decide⟩
  | cons c cs ih =>
    constructor
    · by_cases hsp : isSpaceChar c = true
      · rw [show wsGo false (c :: cs) = ' ' :: wsGo true cs from by simp [wsGo, hsp]]
        exact wsOk_cons_of (by decide) ih.2
      · rw [show wsGo false (c :: cs) = c :: wsGo false cs from by simp [wsGo, hsp]]
        exact wsOk_cons_of (by simp [wstep, hsp]) ih.1
    · by_cases hsp : isSpaceChar c = true
      · rw [show wsGo true (c :: cs) = wsGo true cs from by simp [wsGo, hsp]]
        exact ih.2
      · rw [show wsGo true (c :: cs) = c :: wsGo false cs from by simp [wsGo, hsp]]
        exact wsOk_cons_of (by simp [wstep, hsp]) ih.1

theorem wsGo_id (l : List Char) :
    (wsOk (.ok false) l → wsGo false l = l) ∧ (wsOk (.ok true) l → wsGo true l = l) := by
  induction l with
  | nil => exact ⟨fun _ => rfl, fun _ => rfl⟩
  | cons c cs ih =>
    constructor
    · intro h
      by_cases hsp : isSpaceChar c = true
      · have hc : c = ' ' := by
          by_contra hc
          have h2 := wsOk_cons_elim h
          rw [show wstep (.ok false) c = .dead from by simp [wstep, hsp, hc]] at h2
          exact h2 (foldl_wstep_dead cs)
        subst hc
        rw [show wsGo false (' ' :: cs) = ' ' :: wsGo true cs from rfl]
        have h2 : wsOk (.ok true) cs := by
          have h3 := wsOk_cons_elim h
          rwa [show wstep (.ok false) ' ' = .ok true from by decide] at h3
        rw [ih.2 h2]
      · rw [show wsGo false (c :: cs) = c :: wsGo false cs from by simp [wsGo, hsp]]
        have h2 : wsOk (.ok false) cs := by
          have h3 := wsOk_cons_elim h
          rwa [show wstep (.ok false) c = .ok false from by simp [wstep, hsp]] at h3
        rw [ih.1 h2]
    · intro h
      by_cases hsp : isSpaceChar c = true
      · exfalso
        have h2 := wsOk_cons_elim h
        rw [show wstep (.ok true) c = .dead from by simp [wstep, hsp]] at h2
        exact h2 (foldl_wstep_dead cs)
      · rw [show wsGo true (c :: cs) = c :: wsGo false cs from by simp [wsGo, hsp]]
        have h2 : wsOk (.ok false) cs := by
          have h3 := wsOk_cons_elim h
          rwa [show wstep (.ok true) c = .ok false from by simp [wstep, hsp]] at h3
        rw [ih.1 h2]

theorem rstripSp_append_spaces (l : List Char) :
    ∃ t, l = rstripSp l ++ t ∧ ∀ c ∈ t, isSpaceChar c = true := by
  refine ⟨(l.reverse.takeWhile isSpaceChar).reverse, ?_, ?_⟩
  · have h1 : l.reverse.takeWhile isSpaceChar ++ l.reverse.dropWhile isSpaceChar = l.reverse :=
      List.takeWhile_append_dropWhile isSpaceChar l.reverse
    have h2 := congrArg List.reverse h1
    rw [List.reverse_append, List.reverse_reverse] at h2
    exact h2.symm
  · intro c hc
    rw [List.mem_reverse] at hc
    exact List.mem_takeWhile_imp hc

theorem rstripSp_prefix (l : List Char) : rstripSp l <+: l := by
  obtain ⟨t, hdec, _⟩ := rstripSp_append_spaces l
  exact ⟨t, hdec.symm⟩

theorem hexOk_dropWhile_space {l : List Char} (h : hexOk .norm l) :
    hexOk .norm (l.dropWhile isSpaceChar) := by
  induction l with
  | nil => exact h
  | cons c cs ih =>
    by_cases hsp : isSpaceChar c = true
    · rw [show (c :: cs).dropWhile isSpaceChar = cs.dropWhile isSpaceChar from by
        simp [List.dropWhile_cons, hsp]]
      apply ih
      have h2 := hexOk_cons_elim h
      rwa [hstep_nonword (by decide) (not_word_of_space hsp)] at h2
    · rwa [show (c :: cs).dropWhile isSpaceChar = c :: cs from by
        simp [List.dropWhile_cons, hsp]]

theorem numOk_dropWhile_space {l : List Char} (h : numOk (.scn false) l) :
    numOk (.scn false) (l.dropWhile isSpaceChar) := by
  induction l with
  | nil => exact h
  | cons c cs ih =>
    by_cases hsp : isSpaceChar c = true
    · have hw := not_word_of_space hsp
      have hd := not_isDigit_of_not_word hw
      rw [show (c :: cs).dropWhile isSpaceChar = cs.dropWhile isSpaceChar from by
        simp [List.dropWhile_cons, hsp]]
      apply ih
      have h2 := numOk_cons_elim h
      rwa [show nstep (.scn false) c = .scn false from by simp [nstep, hd, hw]] at h2
    · rwa [show (c :: cs).dropWhile isSpaceChar = c :: cs from by
        simp [List.dropWhile_cons, hsp]]

theorem wsOk_dropWhile_space {l : List Char} (h : wsOk (.ok false) l) :
    wsOk (.ok false) (l.dropWhile isSpaceChar) := by
  cases l with
  | nil => exact h
  | cons c cs =>
    by_cases hsp : isSpaceChar c = true
    · have hc : c = ' ' := by
        by_contra hc
        have h2 := wsOk_cons_elim h
        rw [show wstep (.ok false) c = .dead from by simp [wstep, hsp, hc]] at h2
        exact h2 (foldl_wstep_dead cs)
      subst hc
      have h2 : wsOk (.ok true) cs := by
        have h3 := wsOk_cons_elim h
        rwa [show wstep (.ok false) ' ' = .ok true from by decide] at h3
      rw [show (' ' :: cs).dropWhile isSpaceChar = cs.dropWhile isSpaceChar from rfl]
      cases cs with
      | nil => decide
      | cons d ds =>
        by_cases hd : isSpaceChar d = true
        · exfalso
          have h3 := wsOk_cons_elim h2
          rw [show wstep (.ok true) d = .dead from by simp [wstep, hd]] at h3
          exact h3 (foldl_wstep_dead ds)
        · rw [show (d :: ds).dropWhile isSpaceChar = d :: ds from by
            simp [List.dropWhile_cons, hd]]
          have h3 := wsOk_cons_elim h2
          rw [show wstep (.ok true) d = .ok false from by simp [wstep, hd]] at h3
          exact wsOk_cons_of (by simp [wstep, hd]) h3
    · rwa [show (c :: cs).dropWhile isSpaceChar = c :: cs from by
        simp [List.dropWhile_cons, hsp]]

theorem hexOk_rstripSp {l : List Char} (h : hexOk .norm l) : hexOk .norm (rstripSp l) := by
  obtain ⟨t, hdec, _⟩ := rstripSp_append_spaces l
  rw [hdec] at h
  exact hexOk_append h

theorem numOk_rstripSp {l : List Char} (h : numOk (.scn false) l) :
    numOk (.scn false) (rstripSp l) := by
  obtain ⟨t, hdec, ht⟩ := rstripSp_append_spaces l
  rw [hdec] at h
  exact numOk_append_space ht h

theorem wsOk_rstripSp {l : List Char} (h : wsOk (.ok false) l) : wsOk (.ok false) (rstripSp l) := by
  obtain ⟨t, hdec, _⟩ := rstripSp_append_spaces l
  rw [hdec] at h
  exact wsOk_append h

theorem dropWhile_space_idem (l : List Char) :
    (l.dropWhile isSpaceChar).dropWhile isSpaceChar = l.dropWhile isSpaceChar := by
  induction l with
  | nil => rfl
  | cons c cs ih =>
    by_cases hc : isSpaceChar c = true
    · simp [List.dropWhile_cons, hc, ih]
    · simp [List.dropWhile_cons, hc]

theorem rstripSp_idem (l : List Char) : rstripSp (rstripSp l) = rstripSp l := by
  unfold rstripSp
  rw [List.reverse_reverse, dropWhile_space_idem]

theorem head_dropWhile_space {l : List Char} {c : Char} {cs : List Char}
    (h : l.dropWhile isSpaceChar = c :: cs) : isSpaceChar c = false := by
  induction l with
  | nil => cases h
  | cons d ds ih =>
    by_cases hd : isSpaceChar d = true
    · rw [show (d :: ds).dropWhile isSpaceChar = ds.dropWhile isSpaceChar from by
        simp [List.dropWhile_cons, hd]] at h
      exact ih h
    · rw [show (d :: ds).dropWhile isSpaceChar = d :: ds from by
        simp [List.dropWhile_cons, hd]] at h
      injection h with h1 _
      rw [← h1]
      exact Bool.not_eq_true _ |>.mp hd

theorem pyStrip_idem (l : List Char) : pyStrip (pyStrip l) = pyStrip l := by
  unfold pyStrip
  have hdw : (rstripSp (l.dropWhile isSpaceChar)).dropWhile isSpaceChar
      = rstripSp (l.dropWhile isSpaceChar) := by
    cases hh : rstripSp (l.dropWhile isSpaceChar) with
    | nil => rfl
    | cons c cs =>
      have hpre : rstripSp (l.dropWhile isSpaceChar) <+: l.dropWhile isSpaceChar :=
        rstripSp_prefix _
      rw [hh] at hpre
      obtain ⟨t, ht⟩ := hpre
      have hc : isSpaceChar c = false := by
        have hd : l.dropWhile isSpaceChar = c :: (cs ++ t) := by
          rw [← ht, List.cons_append]
        exact head_dropWhile_space hd
      simp [List.dropWhile_cons, hc]
  rw [hdw, rstripSp_idem]

/-- The masking pipeline is idempotent: its output contains no hex-literal
occurrence, no delimited digit run, and no uncollapsed or edge whitespace, so
a second pass leaves it unchanged. -/
theorem normKey_idem (l : List Char) : normKey (normKey l) = normKey l := by
  have h1 : hexOk .norm (normKey l) :=
    hexOk_rstripSp (hexOk_dropWhile_space
      ((wsGo_hexOk _).1 .norm ((numGo_hexOk _).1 .norm false (hexGo_ok l).1)))
  have h2 : numOk (.scn false) (normKey l) :=
    numOk_rstripSp (numOk_dropWhile_space ((wsGo_numOk _).1 _ ((numGo_numOk _).1 false)))
  have h3 : wsOk (.ok false) (normKey l) :=
    wsOk_rstripSp (wsOk_dropWhile_space (wsGo_wsOk _).1)
  show pyStrip (wsGo false (numGo (.scan false) (hexGo .norm (normKey l)))) = normKey l
  rw [(hexGo_id _).1 h1, (numGo_id _).1 false h2, (wsGo_id _).1 h3]
  exact pyStrip_idem (wsCollapse (numSub (hexSub l)))

/-- C4 (counterexample): on `"0xFAILED"` the hex masking consumes the prefix
`0xFA` of the only trigger word, leaving the key `"<HEX>ILED"`, which contains
no trigger word — so re-normalizing a returned key can yield no key at all
rather than the same key. -/
theorem normalize_error_not_idempotent :
    normalize_error "0xFAILED" = some "<HEX>ILED" ∧
    normalize_error "<HEX>ILED" ≠ some "<HEX>ILED" := by
  decide

/-- C4 (amended): re-normalizing a key returned by `normalize_error` either
yields the very same key, or yields no key (when the masking destroyed every
trigger word); it never yields a different key. -/
theorem normalize_error_renormalize (x k : String) (h : normalize_error x = some k) :
    normalize_error k = none ∨ normalize_error k = some k := by
  unfold normalize_error at h
  by_cases hx : hasTrigger x.toList = true
  · rw [if_pos hx] at h
    injection h with h2
    subst h2
    unfold normalize_error
    by_cases hk : hasTrigger (String.mk (normKey x.toList)).toList = true
    · rw [if_pos hk]
      right
      rw [show (String.mk (normKey x.toList)).toList = normKey x.toList from rfl,
        normKey_idem]
    · rw [if_neg hk]
      left
      rfl
  · rw [if_neg hx] at h
    cases h

/-- Witness for C4 at the key `normalize_error` returns for `"error 42"`. -/
theorem normalize_error_renormalize_witness :
    normalize_error "error 42" = some "error <NUM>" ∧
    (normalize_error "error <NUM>" = none ∨
      normalize_error "error <NUM>" = some "error <NUM>") := by
  refine ⟨by decide, ?_⟩
  exact normalize_error_renormalize "error 42" "error <NUM>" (by decide)
